import Mathlib

/-!
Shallow embedding of the core of the Major_project repository:
the TTL cache (`src/utils/cache.py`), the indicator engine
(`src/services/indicators.py`) and the resolver / batch quote fetcher /
summary scorer (`src/services/market.py`).  Floating point numbers are
modelled as exact rationals; the upstream provider (yfinance) is an
abstract parameter.
-/

namespace Major

/-- Python's `round` to an integer: round half to even (banker's rounding),
modelled exactly over the rationals. -/
def pyRoundInt (x : ℚ) : ℤ :=
  let f : ℤ := ⌊x⌋
  let frac : ℚ := x - f
  if frac < 1/2 then f
  else if 1/2 < frac then f + 1
  else if 2 ∣ f then f else f + 1

/-- Python's `round(x, ndigits)`: round half to even at `ndigits` decimal
places (the code rounds exact rationals; float representation artifacts are
not modelled). -/
def pyRound (ndigits : ℕ) (x : ℚ) : ℚ :=
  (pyRoundInt (x * 10 ^ ndigits) : ℚ) / 10 ^ ndigits

/-- Python's `int(x)` on a number: truncation toward zero. -/
def pyTrunc (x : ℚ) : ℤ :=
  if 0 ≤ x then ⌊x⌋ else ⌈x⌉

/-! ## TTL cache (`src/utils/cache.py`)

The Python `dict` is modelled as an association list in insertion order:
a new key is appended at the end, overwriting an existing key keeps its
position (CPython 3.7+ dict semantics), and `min(items, key=ts)` is the
first entry with minimal timestamp in iteration order. -/

/-- Embedding of `TTLCache` state: `ttl_seconds`, `maxsize` and the backing store
`_store : Dict[str, Tuple[float, Any]]` as an insertion-ordered list. -/
structure TTLCache (α : Type) where
  ttl : ℚ
  maxsize : ℕ
  store : List (String × ℚ × α)
deriving DecidableEq

/-- Embedding of `self._store.get(key)`: the (unique) entry for `key`, if present. -/
def storeLookup {α : Type} : List (String × ℚ × α) → String → Option (ℚ × α)
  | [], _ => none
  | e :: rest, k => if e.1 = k then some e.2 else storeLookup rest k

/-- Embedding of `self._store.pop(key, None)`: drop the entry for `key` (keys are unique
in a dict, so filtering is equivalent to removing the single entry). -/
def storeRemove {α : Type} : List (String × ℚ × α) → String → List (String × ℚ × α)
  | [], _ => []
  | e :: rest, k => if e.1 = k then storeRemove rest k else e :: storeRemove rest k

/-- Embedding of `self._store[key] = value`: overwrite in place if the key exists,
otherwise append at the end (dict insertion order). -/
def storeInsert {α : Type} : List (String × ℚ × α) → String → ℚ × α → List (String × ℚ × α)
  | [], k, tv => [(k, tv.1, tv.2)]
  | e :: rest, k, tv =>
      if e.1 = k then (k, tv.1, tv.2) :: rest else e :: storeInsert rest k tv

/-- Embedding of `min(self._store.items(), key=lambda kv: kv[1][0])`: the first entry with
minimal insertion timestamp, `none` on an empty store (where Python raises
`ValueError`). -/
def oldestEntry {α : Type} : List (String × ℚ × α) → Option (String × ℚ × α)
  | [] => none
  | e :: rest => some (rest.foldl (fun best x => if x.2.1 < best.2.1 then x else best) e)

/-- Embedding of `TTLCache.get`: absent if never set or expired (`now - ts > ttl`); an
expired entry is popped as a side effect.  `now` is the `time()` value. -/
def TTLCache.get {α : Type} (c : TTLCache α) (now : ℚ) (k : String) :
    Option α × TTLCache α :=
  match storeLookup c.store k with
  | none => (none, c)
  | some (ts, v) =>
      if c.ttl < now - ts then (none, { c with store := storeRemove c.store k })
      else (some v, c)

/-- Embedding of `TTLCache.set`: when `len(self._store) >= self.maxsize`, pop the entry
with the oldest insertion time (this check does not look at whether `key`
is already present), then write `(time(), value)` under `key`.
On an empty store with `maxsize = 0` Python's `min` raises; that branch is
modelled as no eviction and is unreachable when `1 ≤ maxsize`. -/
def TTLCache.set {α : Type} (c : TTLCache α) (now : ℚ) (k : String) (v : α) :
    TTLCache α :=
  let base :=
    if c.maxsize ≤ c.store.length then
      match oldestEntry c.store with
      | some e => storeRemove c.store e.1
      | none => c.store
    else c.store
  { c with store := storeInsert base k (now, v) }

/-! ## Indicator engine (`src/services/indicators.py`)

A pandas `Series` of floats with possible `NaN` holes is modelled as
`List (Option ℚ)` (`none` = `NaN`); a fully defined close series is a
`List ℚ`. -/

/-- Embedding of `series.ewm(span=span, adjust=False).mean()` from the first value on:
`e := α·x + (1−α)·prev` with accumulator `prev`. -/
def emaFrom (a prev : ℚ) : List ℚ → List ℚ
  | [] => []
  | x :: xs =>
      let e := a * x + (1 - a) * prev
      e :: emaFrom a e xs

/-- Embedding of `ema(series, span) = series.ewm(span=span, adjust=False).mean()` on a
fully defined series: `ema[0] = series[0]`,
`ema[i] = α·series[i] + (1−α)·ema[i−1]`, `α = 2/(span+1)`. -/
def ema (series : List ℚ) (span : ℕ) : List ℚ :=
  match series with
  | [] => []
  | x :: xs => x :: emaFrom (2 / (span + 1 : ℚ)) x xs

/-- Embedding of `macd(close, fast=12, slow=26, signal=9)`:
`line = ema(close,12) − ema(close,26)`, `signal_line = ema(line, 9)`,
`hist = line − signal_line`. -/
def macd (close : List ℚ) (fast : ℕ := 12) (slow : ℕ := 26) (sgn : ℕ := 9) :
    List ℚ × List ℚ × List ℚ :=
  let emaFast := ema close fast
  let emaSlow := ema close slow
  let line := List.zipWith (fun a b => a - b) emaFast emaSlow
  let signalLine := ema line sgn
  let hist := List.zipWith (fun a b => a - b) line signalLine
  (line, signalLine, hist)

/-- Embedding of `close.diff()`: first entry `NaN`, then successive differences. -/
def diffSeries : List ℚ → List (Option ℚ)
  | [] => []
  | x :: xs => none :: List.zipWith (fun a b => some (b - a)) (x :: xs) xs

/-- Embedding of `delta.clip(lower=0)` pointwise (`NaN` passes through). -/
def clipLower0 (l : List (Option ℚ)) : List (Option ℚ) :=
  l.map (Option.map (fun q => max q 0))

/-- Embedding of `-delta.clip(upper=0)` pointwise (`NaN` passes through). -/
def negClipUpper0 (l : List (Option ℚ)) : List (Option ℚ) :=
  l.map (Option.map (fun q => -(min q 0)))

/-- All values of a window, provided none is `NaN`. -/
def seqOpt : List (Option ℚ) → Option (List ℚ)
  | [] => some []
  | none :: _ => none
  | some x :: rest => (seqOpt rest).map (fun l => x :: l)

/-- Embedding of `s.rolling(window=n).mean()` with the default `min_periods = n`:
entry `i` is the mean of entries `i−n+1 .. i`, `NaN` when fewer than `n`
entries exist or any of them is `NaN`. -/
def rollingMeanOpt (n : ℕ) (l : List (Option ℚ)) : List (Option ℚ) :=
  (List.range l.length).map (fun i =>
    if i + 1 < n then none
    else
      match seqOpt ((l.take (i + 1)).drop (i + 1 - n)) with
      | none => none
      | some w => some (w.sum / (n : ℚ)))

/-- Embedding of `a / b` where either side may be `NaN`. -/
def optDiv (a b : Option ℚ) : Option ℚ :=
  match a, b with
  | some x, some y => some (x / y)
  | _, _ => none

/-- Embedding of `loss.replace(0, np.nan)` pointwise. -/
def replaceZero (l : List (Option ℚ)) : List (Option ℚ) :=
  l.map (fun o => o.bind (fun q => if q = 0 then none else some q))

/-- Embedding of `rsi(close, period=14)`:
`delta = close.diff()`; `gain`/`loss` are rolling means of the clipped
deltas; `rs = gain / loss.replace(0, NaN)`; `rsi = 100 − 100/(1+rs)`. -/
def rsi (close : List ℚ) (period : ℕ := 14) : List (Option ℚ) :=
  let delta := diffSeries close
  let gain := rollingMeanOpt period (clipLower0 delta)
  let loss := rollingMeanOpt period (negClipUpper0 delta)
  let rs := List.zipWith optDiv gain (replaceZero loss)
  rs.map (Option.map (fun r => 100 - 100 / (1 + r)))

/-- Embedding of `s.dropna().tolist()`. -/
def dropna (l : List (Option ℚ)) : List ℚ :=
  l.filterMap id

/-- The `rsi` block of `compute_all_indicators`:
`r = rsi(close).round(2)`, `r_clean = r.dropna()`, output the series and
`float(r_clean.iloc[-1])` when non-empty (else absent). -/
def compute_rsi_output (close : List ℚ) : List ℚ × Option ℚ :=
  let r := (rsi close).map (Option.map (pyRound 2))
  let rClean := dropna r
  (rClean, rClean.getLast?)

/-- The `macd` block of `compute_all_indicators`: each of the three series
is `dropna`-ed independently, and `hist_latest` is the last kept histogram
value (absent when empty).  On a fully defined close series the EMA
recurrence produces no `NaN`, which the embedding reflects by wrapping the
defined values in `some` before `dropna`. -/
def compute_macd_output (close : List ℚ) : List ℚ × List ℚ × List ℚ × Option ℚ :=
  let m := macd close
  let line := dropna (m.1.map some)
  let signalLine := dropna (m.2.1.map some)
  let hist := dropna (m.2.2.map some)
  (line, signalLine, hist, hist.getLast?)

/-! ## Symbol/request resolver (`src/services/market.py`)

The upstream provider (`yf.Ticker(...).history`) is an abstract function
from a candidate symbol and a (period, interval) pair to either a raised
transport error or a data frame; a frame is modelled by its rows' close
values (`[]` = empty frame / `None`). -/

/-- A yfinance history result: the rows of the frame. -/
abbrev Frame := List ℚ

/-- The abstract upstream provider: may raise (`.error`) or return a frame. -/
abbrev Upstream := String → String → String → Except String Frame

/-- Whitespace stripped by Python's `str.strip()` (the ASCII cases). -/
def isSpaceChar (c : Char) : Bool :=
  c == ' ' || c == '\t' || c == '\n' || c == '\r'

/-- Embedding of `str.strip()` on the character list: drop whitespace at both ends. -/
def trimCharList (l : List Char) : List Char :=
  ((l.dropWhile isSpaceChar).reverse.dropWhile isSpaceChar).reverse

/-- Embedding of `_normalize_symbol`: `(symbol or '').strip().upper()` (upper-casing per
character; for the empty string `symbol or ''` is again the empty string). -/
def normalizeSymbol (symbol : String) : String :=
  ⟨(trimCharList symbol.data).map Char.toUpper⟩

/-- Embedding of `_fetch_hist_once`: empty/missing frames become an empty frame; a raised
error propagates (there is no `try` in this function).  The column renaming
and `reset_index` only relabel the frame and are not modelled. -/
def fetchHistOnce (up : Upstream) (symbol period interval : String) :
    Except String Frame :=
  match up symbol period interval with
  | .error e => .error e
  | .ok df => if df.isEmpty then .ok [] else .ok df

/-- Candidate generation in `fetch_history` / `fetch_info` / `fetch_quotes`:
`[symbol] if '.' in symbol else [symbol, symbol+".NS", symbol+".BO"]`. -/
def candidatesOf (sym : String) : List String :=
  if sym.data.contains '.' then [sym] else [sym, sym ++ ".NS", sym ++ ".BO"]

/-- The fixed (period, interval) fallback ladder of `fetch_history`. -/
def combosOf (period interval : String) : List (String × String) :=
  [(period, interval), ("6mo", "1d"), ("3mo", "1d"), ("1mo", "1d"),
   ("1y", "1wk"), ("max", "1wk")]

/-- All (candidate, period, interval) attempts in the order the nested
loops of `fetch_history` visit them. -/
def attemptsOf (sym period interval : String) : List (String × String × String) :=
  (candidatesOf sym).flatMap (fun c =>
    (combosOf period interval).map (fun pi => (c, pi.1, pi.2)))

/-- One element of the `tried` diagnostic list: `f"{cand}({p},{iv})"`. -/
def attemptLabel (cand p iv : String) : String :=
  cand ++ "(" ++ p ++ "," ++ iv ++ ")"

/-- Result of running the candidate×combo ladder. -/
inductive LadderOutcome where
  | found (df : Frame)
  | exhausted
  | raised (msg : String)
deriving DecidableEq

/-- The nested loops of `fetch_history`: returns the outcome, the labels of
the attempts actually made (in order) and the number of upstream
invocations.  A non-empty frame stops the loop; an empty frame moves to the
next pair; a raised error aborts immediately (it is not caught). -/
def runLadder (up : Upstream) :
    List (String × String × String) → LadderOutcome × List String × ℕ
  | [] => (.exhausted, [], 0)
  | (cand, p, iv) :: rest =>
      match fetchHistOnce up cand p iv with
      | .error msg => (.raised msg, [attemptLabel cand p iv], 1)
      | .ok df =>
          if df.isEmpty then
            let r := runLadder up rest
            (r.1, attemptLabel cand p iv :: r.2.1, r.2.2 + 1)
          else (.found df, [attemptLabel cand p iv], 1)

/-- The errors `fetch_history` can signal: an uncaught upstream exception,
or the final `ValueError` carrying the attempted pairs. -/
inductive HistError where
  | transport (msg : String)
  | notFound (symbol : String) (tried : List String)
deriving DecidableEq

/-- The exhaustion message:
`f"No price history found for symbol: {symbol}. Tried: {', '.join(tried)}"`. -/
def notFoundMessage (sym : String) (tried : List String) : String :=
  "No price history found for symbol: " ++ sym ++ ". Tried: " ++
    String.intercalate ", " tried

/-- Cache key of `fetch_history`: `f"hist:{symbol}:{period}:{interval}"`
built from the normalized original symbol and the original parameters. -/
def histKey (sym period interval : String) : String :=
  "hist:" ++ sym ++ ":" ++ period ++ ":" ++ interval

/-- What a call to `fetch_history` produces: the returned frame or raised
error, the cache state afterwards, and how many upstream calls were made. -/
instance {ε α : Type} [DecidableEq ε] [DecidableEq α] : DecidableEq (Except ε α) :=
  fun x y =>
    match x, y with
    | .ok a, .ok b =>
        if h : a = b then .isTrue (by rw [h])
        else .isFalse (by intro hc; exact h (Except.ok.inj hc))
    | .error a, .error b =>
        if h : a = b then .isTrue (by rw [h])
        else .isFalse (by intro hc; exact h (Except.error.inj hc))
    | .ok _, .error _ => .isFalse (by intro hc; exact Except.noConfusion hc)
    | .error _, .ok _ => .isFalse (by intro hc; exact Except.noConfusion hc)

structure HistOutcome where
  result : Except HistError Frame
  cache : TTLCache Frame
  upstreamCalls : ℕ
deriving DecidableEq

/-- Embedding of `fetch_history(symbol, period="1y", interval="1d")`: normalize, consult
the cache, otherwise run the candidate×combo ladder; a successful frame is
cached under the original normalized key; exhaustion raises `ValueError`
with the tried list; an upstream exception propagates uncaught. -/
def fetch_history (up : Upstream) (c : TTLCache Frame) (now : ℚ)
    (symbol : String) (period : String := "1y") (interval : String := "1d") :
    HistOutcome :=
  let sym := normalizeSymbol symbol
  let key := histKey sym period interval
  match TTLCache.get c now key with
  | (some df, c1) => ⟨.ok df, c1, 0⟩
  | (none, c1) =>
      let r := runLadder up (attemptsOf sym period interval)
      match r.1 with
      | .found df => ⟨.ok df, c1.set now key df, r.2.2⟩
      | .exhausted => ⟨.error (.notFound sym r.2.1), c1, r.2.2⟩
      | .raised msg => ⟨.error (.transport msg), c1, r.2.2⟩

/-! ## Summary scorer (`rule_based_summary` in `src/services/market.py`)

The scoring core is a pure function of the five metrics it inspects
(`rsi.latest`, `macd.hist_latest`, `trailingPe`, `returnOnEquity`,
`debtToEquity`); absent metrics are `none`. -/

/-- Python truthiness of an optional number: `None` and `0` are falsy. -/
def pyTruthyQ (o : Option ℚ) : Bool :=
  match o with
  | none => false
  | some q => q != 0

/-- The scoring core of `rule_based_summary`: the sequential rule table,
returning the final score, the signal string and the reasons in the order
the rules fire.  Conditions mirror the code exactly, including the
truthiness tests `if pe and ...` and `if roe and ...`. -/
def rule_based_summary (rsiLatest macdHist pe roe de : Option ℚ) :
    ℤ × String × List String :=
  let s0 : ℤ × List String := (0, [])
  let s1 :=
    match rsiLatest with
    | some r =>
        if 45 ≤ r ∧ r ≤ 60 then (s0.1 + 1, s0.2 ++ ["RSI in neutral-to-positive zone"])
        else if r < 35 then (s0.1 - 1, s0.2 ++ ["RSI indicates oversold (bearish risk)"])
        else if r > 70 then (s0.1 - 1, s0.2 ++ ["RSI indicates overbought (pullback risk)"])
        else s0
    | none => s0
  let s2 :=
    match macdHist with
    | some m => if m > 0 then (s1.1 + 1, s1.2 ++ ["MACD histogram positive (bullish momentum)"]) else s1
    | none => s1
  let s3 :=
    match pe with
    | some p => if p ≠ 0 ∧ p > 0 ∧ p < 35 then (s2.1 + 1, s2.2 ++ ["Reasonable P/E valuation"]) else s2
    | none => s2
  let s4 :=
    match roe with
    | some r => if r ≠ 0 ∧ r > 12/100 then (s3.1 + 1, s3.2 ++ ["Healthy ROE (>12%)"]) else s3
    | none => s3
  let s5 :=
    match de with
    | some d => if d < 100 then (s4.1 + 1, s4.2 ++ ["Manageable debt (D/E < 100)"]) else s4
    | none => s4
  let signal :=
    if s5.1 ≥ 4 then "Strong Buy"
    else if s5.1 = 3 then "Buy"
    else if s5.1 = 2 then "Hold"
    else if s5.1 = 1 then "Weak Hold"
    else "Sell"
  (s5.1, signal, s5.2)

/-! ## Batch quote fetcher (`fetch_quotes` in `src/services/market.py`)

Per-candidate upstream responses are modelled as well typed: an attempt
either raises before mutating the quote item, or runs the whole per-candidate
block (in the code all raise points — `t.fast_info`, `t.history` — precede
the first item mutation). -/

/-- The `fast_info` mapping fields the code reads, each possibly absent. -/
structure FastInfo where
  last_price : Option ℚ := none
  lastPrice : Option ℚ := none
  last_trade : Option ℚ := none
  regularMarketPrice : Option ℚ := none
  previous_close : Option ℚ := none
  previousClose : Option ℚ := none
  regularMarketPreviousClose : Option ℚ := none
  currency : Option String := none
  market_cap : Option ℚ := none
  marketCap : Option ℚ := none
deriving DecidableEq

/-- The response of one candidate: either the whole attempt raises, or it
yields a `fast_info` mapping together with the outcome of the 5-day history
call (`.error` = that call would raise; the list holds the closes). -/
inductive CandResp where
  | raise
  | ok (fi : FastInfo) (hist : Except Unit (List ℚ))

/-- Python's `x or y` on optional numbers: keep `x` when truthy
(`None` and `0` fall through to `y`). -/
def pyOrQ (a b : Option ℚ) : Option ℚ :=
  match a with
  | some q => if q ≠ 0 then some q else b
  | none => b

/-- One quote entry of the result list (`item` in the code); `none` fields
are the JSON `null`s. -/
structure QuoteItem where
  symbol : String
  price : Option ℚ := none
  currency : Option String := none
  previous_close : Option ℚ := none
  change : Option ℚ := none
  change_pct : Option ℚ := none
  market_cap : Option ℤ := none
  ts : ℤ
deriving DecidableEq

/-- The fresh item built at the top of the per-symbol loop. -/
def defaultItem (sym : String) (now : ℤ) : QuoteItem :=
  { symbol := sym, ts := now }

/-- Price/previous-close resolution of one candidate: the `or`-chains over
`fast_info`, then — when the price is falsy — the fallback to the last two
closes of the 5-day history (`none` result = the history call raised).
When the fallback runs on a non-empty history, the previous close is
overwritten, to `None` when the history has a single row. -/
def resolveRaw (fi : FastInfo) (hist : Except Unit (List ℚ)) :
    Option (Option ℚ × Option ℚ) :=
  let price0 := pyOrQ (pyOrQ (pyOrQ fi.last_price fi.lastPrice) fi.last_trade)
    fi.regularMarketPrice
  let prev0 := pyOrQ (pyOrQ fi.previous_close fi.previousClose)
    fi.regularMarketPreviousClose
  if pyTruthyQ price0 then some (price0, prev0)
  else
    match hist with
    | .error _ => none
    | .ok h =>
        match h.getLast? with
        | none => some (price0, prev0)
        | some lastClose =>
            (some (some lastClose,
              if 1 < h.length then h.get? (h.length - 2) else none))

/-- The `change`/`change_pct` block: only when the item's price and a
truthy (non-zero) previous close are both present;
`change = round(price − previous_close, 4)` and
`change_pct = round(100 · change / previous_close, 3)`. -/
def setChange (it : QuoteItem) : QuoteItem :=
  match it.price, it.previous_close with
  | some p, some pc =>
      if pc ≠ 0 then
        let chg := pyRound 4 (p - pc)
        { it with change := some chg,
                  change_pct := some (pyRound 3 (100 * chg / pc)) }
      else it
  | _, _ => it

/-- Embedding of `if price is not None: item["price"] = float(price)`. -/
def applyPriceF (it : QuoteItem) (o : Option ℚ) : QuoteItem :=
  match o with
  | some q => { it with price := some q }
  | none => it

/-- Embedding of `if prev is not None: item["previous_close"] = float(prev)`. -/
def applyPrevF (it : QuoteItem) (o : Option ℚ) : QuoteItem :=
  match o with
  | some q => { it with previous_close := some q }
  | none => it

/-- Embedding of `if curr: item["currency"] = curr` (`curr` truthy = non-empty). -/
def applyCurrencyF (it : QuoteItem) (cur : Option String) : QuoteItem :=
  match cur with
  | some s => if s ≠ "" then { it with currency := some s } else it
  | none => it

/-- Embedding of `if mcap: item["market_cap"] = int(mcap)` (the inner `try` cannot fail
on a well-typed number). -/
def applyMcapF (it : QuoteItem) (m : Option ℚ) : QuoteItem :=
  match m with
  | some q => if q ≠ 0 then { it with market_cap := some (pyTrunc q) } else it
  | none => it

/-- The whole `try` block for one candidate: `none` = exception caught by
the `except: continue` (no mutation), `some it` = the mutated item followed
by `break`.  The steps run in the code's order: price, previous close, the
change block, currency, market cap. -/
def processCandidate (it : QuoteItem) (resp : CandResp) : Option QuoteItem :=
  match resp with
  | .raise => none
  | .ok fi hist =>
      match resolveRaw fi hist with
      | none => none
      | some (price1, prev1) =>
          some (applyMcapF
            (applyCurrencyF
              (setChange (applyPrevF (applyPriceF it price1) prev1))
              fi.currency)
            (pyOrQ fi.market_cap fi.marketCap))

/-- The candidate loop of `fetch_quotes`: first non-raising candidate wins
(`break`); raising candidates are skipped (`continue`); exhaustion leaves
the item as it was. -/
def tryCandidates (it : QuoteItem) : List CandResp → QuoteItem
  | [] => it
  | r :: rest =>
      match processCandidate it r with
      | some it2 => it2
      | none => tryCandidates it rest

/-- One symbol of the batch: run the candidate ladder on a fresh item. -/
def processSymbol (qp : String → CandResp) (now : ℤ) (sym : String) : QuoteItem :=
  tryCandidates (defaultItem sym now) ((candidatesOf sym).map qp)

/-- Embedding of `_chunks(seq, size)`: accumulate a buffer, yield it once
`len(buf) >= size`, and yield the leftover buffer at the end. -/
def chunksAux {α : Type} (size : ℕ) : List α → List α → List (List α)
  | buf, [] => if buf.isEmpty then [] else [buf]
  | buf, s :: rest =>
      let buf2 := buf ++ [s]
      if size ≤ buf2.length then buf2 :: chunksAux size [] rest
      else chunksAux size buf2 rest

/-- Embedding of `_chunks` as called on the normalized symbol list. -/
def pyChunks {α : Type} (l : List α) (size : ℕ) : List (List α) :=
  chunksAux size [] l

/-- Embedding of `fetch_quotes(symbols, chunk_size=25, sleep_ms=200)`: drop falsy (empty)
symbols, normalize, process chunk by chunk appending one item per symbol.
`qp` maps a candidate symbol to its upstream response and `now` is the
`int(time.time())` timestamp; the inter-chunk `time.sleep` has no effect on
the returned data and is not modelled. -/
def fetch_quotes (qp : String → CandResp) (now : ℤ) (symbols : List String)
    (chunk_size : ℕ := 25) : List QuoteItem :=
  let syms := (symbols.filter (fun s => !s.isEmpty)).map normalizeSymbol
  ((pyChunks syms chunk_size).map (fun batch =>
    batch.map (processSymbol qp now))).flatten

/-! ## Concrete scenarios used by counterexamples and witnesses -/

/-- An upstream that raises a transport error on the very first attempt of
symbol `AAA` (requested combo `1y`/`1d`) and returns a non-empty frame for
every other attempt. -/
def raiseFirstUp : Upstream := fun cand p iv =>
  if cand = "AAA" ∧ p = "1y" ∧ iv = "1d" then .error "boom" else .ok [1]

/-- An upstream for which the bare symbol always yields an empty frame and
the `.NS`-suffixed candidate succeeds. -/
def nsWinsUp : Upstream := fun cand _ _ =>
  if cand = "TCS.NS" then .ok [5] else .ok []

/-- An upstream whose every attempt yields an empty frame. -/
def allEmptyUp : Upstream := fun _ _ _ => .ok []

/-- A quote provider resolving every candidate from `fast_info` alone. -/
def fastInfoQp : String → CandResp := fun _ =>
  .ok { last_price := some 10, previous_close := some 8 } (.ok [])

/-! ## Store lemmas -/

theorem storeLookup_insert_self {α : Type} (s : List (String × ℚ × α)) (k : String)
    (tv : ℚ × α) : storeLookup (storeInsert s k tv) k = some tv := by
  induction s with
  | nil => simp [storeInsert, storeLookup]
  | cons e rest ih =>
      by_cases h : e.1 = k
      · simp [storeInsert, h, storeLookup]
      · simpa [storeInsert, h, storeLookup] using ih

theorem storeLookup_insert_other {α : Type} (s : List (String × ℚ × α)) (k k2 : String)
    (tv : ℚ × α) (hne : k2 ≠ k) :
    storeLookup (storeInsert s k tv) k2 = storeLookup s k2 := by
  induction s with
  | nil => simp [storeInsert, storeLookup, Ne.symm hne]
  | cons e rest ih =>
      by_cases h : e.1 = k
      · subst h
        simp [storeInsert, storeLookup, Ne.symm hne]
      · by_cases h2 : e.1 = k2
        · simp [storeInsert, h, storeLookup, h2, hne]
        · simpa [storeInsert, h, storeLookup, h2] using ih

theorem storeLookup_remove_other {α : Type} (s : List (String × ℚ × α)) (k k2 : String)
    (hne : k2 ≠ k) : storeLookup (storeRemove s k) k2 = storeLookup s k2 := by
  induction s with
  | nil => simp [storeRemove, storeLookup]
  | cons e rest ih =>
      by_cases h : e.1 = k
      · have h2 : e.1 ≠ k2 := by rw [h]; exact Ne.symm hne
        simpa [storeRemove, storeLookup, h, h2, Ne.symm hne] using ih
      · by_cases h2 : e.1 = k2
        · simp [storeRemove, storeLookup, h, h2, hne]
        · simpa [storeRemove, storeLookup, h, h2] using ih

theorem oldestEntry_spec {α : Type} (e : String × ℚ × α) (rest : List (String × ℚ × α)) :
    ∃ m, oldestEntry (e :: rest) = some m ∧ m ∈ e :: rest ∧
      ∀ x ∈ e :: rest, m.2.1 ≤ x.2.1 := by
  induction rest generalizing e with
  | nil => exact ⟨e, rfl, by simp, by simp⟩
  | cons b rest ih =>
      rcases ih (if b.2.1 < e.2.1 then b else e) with ⟨m, hm, hmem, hle⟩
      refine ⟨m, ?_, ?_, ?_⟩
      · simpa [oldestEntry] using hm
      · rcases List.mem_cons.mp hmem with h | h
        · by_cases hb : b.2.1 < e.2.1
          · simp [hb] at h; simp [h]
          · simp [hb] at h; simp [h]
        · simp [List.mem_cons.mpr (Or.inr (List.mem_cons.mpr (Or.inr h)))]
      · intro x hx
        rcases List.mem_cons.mp hx with h | h
        · subst h
          have := hle _ (List.mem_cons_self _ _)
          by_cases hb : b.2.1 < x.2.1
          · simp [hb] at this; exact le_trans this (le_of_lt hb)
          · simpa [hb] using this
        · rcases List.mem_cons.mp h with h' | h'
          · subst h'
            have := hle _ (List.mem_cons_self _ _)
            by_cases hb : x.2.1 < e.2.1
            · simpa [hb] using this
            · simp [hb] at this; exact le_trans this (le_of_not_lt hb)
          · exact hle _ (List.mem_cons.mpr (Or.inr h'))

/-! ## Claim C2 -/

/-- Claim C2 counterexample: a `maxsize = 2` cache holding `a` (time 1) and
`b` (time 2) is at capacity; `set` of the already-present key `b` still
evicts the other entry `a`, contradicting "setting a key that is already
present never removes any other entry". -/
theorem ttlcache_set_existing_key_evicts_cex :
    storeLookup [("a", (1 : ℚ), (10 : ℚ)), ("b", 2, 20)] "b" = some (2, 20) ∧
    storeLookup ((TTLCache.set ⟨300, 2, [("a", 1, 10), ("b", 2, 20)]⟩ 3 "b" (30 : ℚ)).store)
      "a" = none := by
  decide

/-- Claim C2 (amended): `set` inserts or overwrites the key with a fresh
insertion time; below capacity no other entry is removed; whenever the
store already holds at least `maxsize` entries, the entry with the oldest
insertion time is evicted before inserting — regardless of whether the key
being set is already present. -/
theorem ttlcache_set_spec {α : Type} (c : TTLCache α) (now : ℚ) (k : String) (v : α) :
    storeLookup (c.set now k v).store k = some (now, v) ∧
    (c.store.length < c.maxsize →
      ∀ k2, k2 ≠ k → storeLookup (c.set now k v).store k2 = storeLookup c.store k2) ∧
    (c.maxsize ≤ c.store.length → c.store ≠ [] →
      ∃ m, oldestEntry c.store = some m ∧ m ∈ c.store ∧
        (∀ e ∈ c.store, m.2.1 ≤ e.2.1) ∧
        (c.set now k v).store = storeInsert (storeRemove c.store m.1) k (now, v)) := by
  refine ⟨?_, ?_, ?_⟩
  · simp [TTLCache.set, storeLookup_insert_self]
  · intro hlt k2 hne
    have h : ¬ c.maxsize ≤ c.store.length := not_le.mpr hlt
    simp [TTLCache.set, h, storeLookup_insert_other _ _ _ _ hne]
  · intro hge hnil
    match hs : c.store with
    | [] => exact absurd hs hnil
    | e :: rest =>
        rcases oldestEntry_spec e rest with ⟨m, hm, hmem, hle⟩
        refine ⟨m, hm, hmem, hle, ?_⟩
        rw [hs] at hge
        have hge2 : c.maxsize ≤ rest.length + 1 := by simpa using hge
        simp [TTLCache.set, hs, hge2, hm]

/-- Claim C2 witness: below capacity, setting a new key `b` preserves the
binding of `a` with its original insertion time. -/
theorem ttlcache_set_spec_witness :
    storeLookup ((TTLCache.set ⟨300, 2, [("a", 1, (10 : ℚ))]⟩ 5 "b" 20).store) "a" =
      some (1, 10) :=
  ((ttlcache_set_spec (⟨300, 2, [("a", 1, (10 : ℚ))]⟩ : TTLCache ℚ) 5 "b" 20).2.1
    (by decide) "a" (by decide)).trans (by decide)

/-! ## Claim C7 -/

/-- Claim C7: the adjust=false EMA of `[10, 20, 30]` with span 2
(`α = 2/3`) is `[10, 50/3, 230/9]`, within `±0.01` of
`[10, 16.67, 25.56]`. -/
theorem ema_example_values :
    ema [10, 20, 30] 2 = [10, 50/3, 230/9] ∧
    |(10 : ℚ) - 10| ≤ 1/100 ∧ |(50/3 : ℚ) - 1667/100| ≤ 1/100 ∧
    |(230/9 : ℚ) - 2556/100| ≤ 1/100 := by
  refine ⟨by norm_num [ema, emaFrom], by norm_num, ?_, ?_⟩
  · rw [abs_le]; constructor <;> norm_num
  · rw [abs_le]; constructor <;> norm_num

/-! ## Claim C3 -/

/-- Claim C3 counterexample: at RSI = 50, MACD hist = 0.5, P/E = 20,
ROE = 0.15, D/E = 50 all five rules fire, so the score is not 4 and the
reasons list does not have 4 entries. -/
theorem rule_based_summary_example_cex :
    ¬ ((rule_based_summary (some 50) (some (1/2)) (some 20) (some (15/100)) (some 50)).1 = 4 ∧
       (rule_based_summary (some 50) (some (1/2)) (some 20) (some (15/100))
         (some 50)).2.2.length = 4) := by
  have h : rule_based_summary (some 50) (some (1/2)) (some 20) (some (15/100)) (some 50) =
      (5, "Strong Buy",
        ["RSI in neutral-to-positive zone", "MACD histogram positive (bullish momentum)",
         "Reasonable P/E valuation", "Healthy ROE (>12%)", "Manageable debt (D/E < 100)"]) := by
    norm_num [rule_based_summary]
  rw [h]
  decide

/-- Claim C3 (amended): for RSI = 50, MACD hist = 0.5, P/E = 20,
ROE = 0.15, D/E = 50 the scorer returns score 5, signal "Strong Buy" and
exactly the five reasons of the rule table, in table order. -/
theorem rule_based_summary_example_value :
    rule_based_summary (some 50) (some (1/2)) (some 20) (some (15/100)) (some 50) =
      (5, "Strong Buy",
        ["RSI in neutral-to-positive zone", "MACD histogram positive (bullish momentum)",
         "Reasonable P/E valuation", "Healthy ROE (>12%)", "Manageable debt (D/E < 100)"]) := by
  norm_num [rule_based_summary]

/-! ## Indicator lemmas, claims C6 and C10 -/

theorem diffSeries_length (close : List ℚ) : (diffSeries close).length = close.length := by
  cases close with
  | nil => rfl
  | cons x xs => simp [diffSeries]

theorem rollingMeanOpt_none_of_short {n : ℕ} {l : List (Option ℚ)} (h : l.length < n) :
    ∀ o ∈ rollingMeanOpt n l, o = none := by
  intro o ho
  simp only [rollingMeanOpt, List.mem_map, List.mem_range] at ho
  obtain ⟨i, hi, hf⟩ := ho
  have h2 : i + 1 < n := lt_of_le_of_lt (Nat.succ_le_of_lt hi) h
  rw [← hf]
  simp [h2]

theorem zipWith_optDiv_none {g h : List (Option ℚ)} (hg : ∀ o ∈ g, o = none) :
    ∀ o ∈ List.zipWith optDiv g h, o = none := by
  induction g generalizing h with
  | nil => intro o ho; simp at ho
  | cons a g2 ih =>
      intro o ho
      cases h with
      | nil => simp at ho
      | cons b h2 =>
          rcases List.mem_cons.mp ho with h' | h'
          · have ha := hg a (List.mem_cons_self _ _)
            rw [h', ha]; rfl
          · exact ih (fun x hx => hg x (List.mem_cons_of_mem _ hx)) o h'

theorem dropna_eq_nil {l : List (Option ℚ)} (h : ∀ o ∈ l, o = none) : dropna l = [] := by
  induction l with
  | nil => rfl
  | cons a t ih =>
      have ha := h a (List.mem_cons_self _ _)
      subst ha
      simpa [dropna] using ih (fun x hx => h x (List.mem_cons_of_mem _ hx))

theorem rsi_all_none_of_short {close : List ℚ} (h : close.length < 14) :
    ∀ o ∈ rsi close, o = none := by
  intro o ho
  simp only [rsi, List.mem_map] at ho
  obtain ⟨o2, ho2, hf⟩ := ho
  have hlen : (clipLower0 (diffSeries close)).length < 14 := by
    simpa [clipLower0, diffSeries_length] using h
  have hg := rollingMeanOpt_none_of_short hlen
  have h2 := zipWith_optDiv_none hg o2 ho2
  rw [← hf, h2]
  rfl

/-- Claim C6: for a close series of length strictly below 14, the RSI
output sequence is empty and the latest value is absent. -/
theorem rsi_short_series_empty (close : List ℚ) (h : close.length < 14) :
    compute_rsi_output close = ([], none) := by
  have hall : ∀ o ∈ (rsi close).map (Option.map (pyRound 2)), o = none := by
    intro o ho
    simp only [List.mem_map] at ho
    obtain ⟨o2, ho2, hf⟩ := ho
    rw [← hf, rsi_all_none_of_short h o2 ho2]
    rfl
  simp [compute_rsi_output, dropna_eq_nil hall]

/-- Claim C6 witness: a concrete 3-point close series. -/
theorem rsi_short_series_empty_witness :
    ([(1 : ℚ), 2, 3].length < 14) ∧ compute_rsi_output [1, 2, 3] = ([], none) :=
  ⟨by decide, rsi_short_series_empty [1, 2, 3] (by decide)⟩

theorem emaFrom_length (a prev : ℚ) (l : List ℚ) : (emaFrom a prev l).length = l.length := by
  induction l generalizing prev with
  | nil => rfl
  | cons x xs ih => simp [emaFrom, ih]

theorem ema_length (s : List ℚ) (span : ℕ) : (ema s span).length = s.length := by
  cases s with
  | nil => rfl
  | cons x xs => simp [ema, emaFrom_length]

theorem dropna_map_some (l : List ℚ) : dropna (l.map some) = l := by
  induction l with
  | nil => rfl
  | cons x xs _ => simp [dropna]

/-- Claim C10: on a fully defined close series the MACD line, signal line
and histogram each have one value per input point (`dropna` removes
nothing), and the histogram is the pointwise difference of line and signal
line. -/
theorem macd_full_length_pointwise (close : List ℚ) (_h : close ≠ []) :
    (compute_macd_output close).1.length = close.length ∧
    (compute_macd_output close).2.1.length = close.length ∧
    (compute_macd_output close).2.2.1.length = close.length ∧
    (compute_macd_output close).2.2.1 =
      List.zipWith (fun a b => a - b) (compute_macd_output close).1
        (compute_macd_output close).2.1 := by
  refine ⟨?_, ?_, ?_, ?_⟩ <;>
    simp [compute_macd_output, macd, dropna_map_some, List.length_zipWith, ema_length]

/-- Claim C10 witness: a concrete 2-point close series. -/
theorem macd_full_length_pointwise_witness :
    (compute_macd_output [(1 : ℚ), 2]).2.2.1.length = 2 ∧
    (compute_macd_output [(1 : ℚ), 2]).2.2.1 =
      List.zipWith (fun a b => a - b) (compute_macd_output [(1 : ℚ), 2]).1
        (compute_macd_output [(1 : ℚ), 2]).2.1 :=
  ⟨(macd_full_length_pointwise [1, 2] (by decide)).2.2.1,
   (macd_full_length_pointwise [1, 2] (by decide)).2.2.2⟩

/-! ## Resolver lemmas, claims C5, C1 and C4 -/

theorem runLadder_all_empty (up : Upstream) (attempts : List (String × String × String))
    (h : ∀ a ∈ attempts, up a.1 a.2.1 a.2.2 = .ok []) :
    runLadder up attempts =
      (.exhausted, attempts.map (fun a => attemptLabel a.1 a.2.1 a.2.2),
       attempts.length) := by
  induction attempts with
  | nil => rfl
  | cons a rest ih =>
      obtain ⟨cand, p, iv⟩ := a
      have ha := h _ (List.mem_cons_self _ _)
      have ihr := ih (fun x hx => h x (List.mem_cons_of_mem _ hx))
      simp [runLadder, fetchHistOnce, ha, ihr]

theorem runLadder_raised (up : Upstream) (pre : List (String × String × String))
    (cand p iv msg : String) (rest : List (String × String × String))
    (hpre : ∀ a ∈ pre, up a.1 a.2.1 a.2.2 = .ok [])
    (hraise : up cand p iv = .error msg) :
    runLadder up (pre ++ (cand, p, iv) :: rest) =
      (.raised msg,
       (pre.map fun a => attemptLabel a.1 a.2.1 a.2.2) ++ [attemptLabel cand p iv],
       pre.length + 1) := by
  induction pre with
  | nil => simp [runLadder, fetchHistOnce, hraise]
  | cons a pr ih =>
      obtain ⟨c1, p1, iv1⟩ := a
      have ha := hpre _ (List.mem_cons_self _ _)
      have ihr := ih (fun x hx => hpre x (List.mem_cons_of_mem _ hx))
      simp [runLadder, fetchHistOnce, ha, ihr]

theorem attemptsOf_length (sym period interval : String) :
    (attemptsOf sym period interval).length =
      if sym.data.contains '.' then 6 else 18 := by
  unfold attemptsOf candidatesOf combosOf
  cases h : sym.data.contains '.' <;> simp [h]

theorem ttlcache_get_ttl {α : Type} (c : TTLCache α) (now : ℚ) (k : String) :
    (TTLCache.get c now k).2.ttl = c.ttl := by
  unfold TTLCache.get
  cases storeLookup c.store k with
  | none => rfl
  | some tv =>
      obtain ⟨ts, v⟩ := tv
      by_cases h : c.ttl < now - ts <;> simp [h]

/-- Claim C5: when every (candidate, combo) attempt yields an empty frame
and the cache misses, history resolution fails with the not-found error
carrying the labels of all attempts in order — 18 attempts for an
unsuffixed normalized symbol, 6 for a suffixed one. -/
theorem fetch_history_exhaustion_tried_list (up : Upstream) (c : TTLCache Frame)
    (now : ℚ) (symbol period interval : String)
    (hmiss : (TTLCache.get c now
      (histKey (normalizeSymbol symbol) period interval)).1 = none)
    (hempty : ∀ a ∈ attemptsOf (normalizeSymbol symbol) period interval,
      up a.1 a.2.1 a.2.2 = .ok []) :
    (fetch_history up c now symbol period interval).result =
      .error (.notFound (normalizeSymbol symbol)
        ((attemptsOf (normalizeSymbol symbol) period interval).map
          (fun a => attemptLabel a.1 a.2.1 a.2.2))) ∧
    (attemptsOf (normalizeSymbol symbol) period interval).length =
      (if (normalizeSymbol symbol).data.contains '.' then 6 else 18) := by
  refine ⟨?_, attemptsOf_length _ _ _⟩
  have hrl := runLadder_all_empty up _ hempty
  rcases hE : TTLCache.get c now (histKey (normalizeSymbol symbol) period interval)
    with ⟨o, c1⟩
  rw [hE] at hmiss
  simp at hmiss
  subst hmiss
  simp [fetch_history, hE, hrl]

/-- Claim C5 witness: an all-empty upstream, a fresh cache and the
unsuffixed symbol `AAA`: the error carries all 18 attempt labels. -/
theorem fetch_history_exhaustion_tried_list_witness :
    (fetch_history allEmptyUp ⟨300, 128, []⟩ 0 "AAA" "1y" "1d").result =
      .error (.notFound (normalizeSymbol "AAA")
        ((attemptsOf (normalizeSymbol "AAA") "1y" "1d").map
          (fun a => attemptLabel a.1 a.2.1 a.2.2))) ∧
    (attemptsOf (normalizeSymbol "AAA") "1y" "1d").length = 18 := by
  have h := fetch_history_exhaustion_tried_list allEmptyUp ⟨300, 128, []⟩ 0 "AAA" "1y" "1d"
    (by decide) (fun a _ => rfl)
  exact ⟨h.1, h.2.trans (by decide)⟩

/-- Claim C1 counterexample: the first attempt for `AAA` raises while the
very next combo would return data; `fetch_history` surfaces the raw
transport error instead of moving on to the next (candidate, combo) pair. -/
theorem fetch_history_transport_surfaces_cex :
    (fetch_history raiseFirstUp ⟨300, 128, []⟩ 0 "AAA" "1y" "1d").result =
      .error (.transport "boom") ∧
    raiseFirstUp "AAA" "6mo" "1d" = .ok [1] ∧
    (fetch_history raiseFirstUp ⟨300, 128, []⟩ 0 "AAA" "1y" "1d").result ≠ .ok [1] := by
  decide

/-- Claim C1 (amended): a transport failure thrown by a candidate attempt
is not caught: on a cache miss, once the attempts before it yield empty
frames, the raised error propagates to the caller as-is and resolution
stops at that attempt (no further upstream calls). -/
theorem fetch_history_transport_propagates (up : Upstream) (c : TTLCache Frame)
    (now : ℚ) (symbol period interval msg : String)
    (pre rest : List (String × String × String)) (cand p iv : String)
    (hmiss : (TTLCache.get c now
      (histKey (normalizeSymbol symbol) period interval)).1 = none)
    (hsplit : attemptsOf (normalizeSymbol symbol) period interval =
      pre ++ (cand, p, iv) :: rest)
    (hpre : ∀ a ∈ pre, up a.1 a.2.1 a.2.2 = .ok [])
    (hraise : up cand p iv = .error msg) :
    (fetch_history up c now symbol period interval).result =
      .error (.transport msg) ∧
    (fetch_history up c now symbol period interval).upstreamCalls = pre.length + 1 := by
  have hrl := runLadder_raised up pre cand p iv msg rest hpre hraise
  rcases hE : TTLCache.get c now (histKey (normalizeSymbol symbol) period interval)
    with ⟨o, c1⟩
  rw [hE] at hmiss
  simp at hmiss
  subst hmiss
  constructor <;> simp [fetch_history, hE, hsplit, hrl]

/-- Claim C1 witness: the concrete raising upstream, with an empty prefix
of empty attempts. -/
theorem fetch_history_transport_propagates_witness :
    (fetch_history raiseFirstUp ⟨300, 128, []⟩ 0 "AAA" "1y" "1d").upstreamCalls = 1 :=
  (fetch_history_transport_propagates raiseFirstUp ⟨300, 128, []⟩ 0 "AAA" "1y" "1d"
    "boom" [] ((attemptsOf (normalizeSymbol "AAA") "1y" "1d").tail) "AAA" "1y" "1d"
    (by decide) (by decide) (by intro a ha; exact absurd ha (List.not_mem_nil a))
    (by decide)).2

/-- Claim C4: a successful resolution (cache miss, ladder finds `df`) is
stored under the key built from the normalized original symbol and the
originally requested (period, interval); a second call within the TTL
returns the cached frame with zero further upstream invocations and an
unchanged cache. -/
theorem fetch_history_caches_original_key (up : Upstream) (c : TTLCache Frame)
    (now now2 : ℚ) (symbol period interval : String) (df : Frame)
    (_hmax : 1 ≤ c.maxsize)
    (hmiss : (TTLCache.get c now
      (histKey (normalizeSymbol symbol) period interval)).1 = none)
    (hfound : (runLadder up
      (attemptsOf (normalizeSymbol symbol) period interval)).1 = .found df)
    (httl : now2 - now ≤ c.ttl) :
    (fetch_history up c now symbol period interval).result = .ok df ∧
    storeLookup (fetch_history up c now symbol period interval).cache.store
      (histKey (normalizeSymbol symbol) period interval) = some (now, df) ∧
    fetch_history up (fetch_history up c now symbol period interval).cache now2
      symbol period interval =
      ⟨.ok df, (fetch_history up c now symbol period interval).cache, 0⟩ := by
  rcases hE : TTLCache.get c now (histKey (normalizeSymbol symbol) period interval)
    with ⟨o, c1⟩
  rw [hE] at hmiss
  simp at hmiss
  subst hmiss
  have houtcome : fetch_history up c now symbol period interval =
      ⟨.ok df,
       c1.set now (histKey (normalizeSymbol symbol) period interval) df,
       (runLadder up (attemptsOf (normalizeSymbol symbol) period interval)).2.2⟩ := by
    simp [fetch_history, hE, hfound]
  have hlook : storeLookup
      (c1.set now (histKey (normalizeSymbol symbol) period interval) df).store
      (histKey (normalizeSymbol symbol) period interval) = some (now, df) := by
    simp [TTLCache.set, storeLookup_insert_self]
  have httl1 : c1.ttl = c.ttl := by
    have := ttlcache_get_ttl c now (histKey (normalizeSymbol symbol) period interval)
    rw [hE] at this
    exact this
  have httl2 : ¬ ((c1.set now (histKey (normalizeSymbol symbol) period interval) df).ttl
      < now2 - now) := by
    have hset : (c1.set now (histKey (normalizeSymbol symbol) period interval) df).ttl
        = c1.ttl := rfl
    rw [hset, httl1]
    exact not_lt.mpr httl
  have hget2 : TTLCache.get
      (c1.set now (histKey (normalizeSymbol symbol) period interval) df) now2
      (histKey (normalizeSymbol symbol) period interval) =
      (some df, c1.set now (histKey (normalizeSymbol symbol) period interval) df) := by
    unfold TTLCache.get
    rw [hlook]
    simp [httl2]
  refine ⟨by rw [houtcome], by rw [houtcome]; exact hlook, ?_⟩
  rw [houtcome]
  simp [fetch_history, hget2]

/-- Claim C4 witness: the bare candidate `TCS` yields empty frames, the
suffixed `TCS.NS` wins, yet the cache key is built from the normalized
original symbol `" tcs" → TCS` and the original parameters, and a second
call is served from the cache with zero upstream invocations. -/
theorem fetch_history_caches_original_key_witness :
    storeLookup (fetch_history nsWinsUp ⟨300, 128, []⟩ 0 " tcs" "1y" "1d").cache.store
      (histKey (normalizeSymbol " tcs") "1y" "1d") = some (0, [5]) ∧
    histKey (normalizeSymbol " tcs") "1y" "1d" = "hist:TCS:1y:1d" ∧
    (fetch_history nsWinsUp
      (fetch_history nsWinsUp ⟨300, 128, []⟩ 0 " tcs" "1y" "1d").cache 0
      " tcs" "1y" "1d").upstreamCalls = 0 := by
  have h := fetch_history_caches_original_key nsWinsUp ⟨300, 128, []⟩ 0 0 " tcs" "1y" "1d"
    [5] (by decide) (by decide) (by decide) (by norm_num)
  refine ⟨h.2.1, by decide, ?_⟩
  rw [h.2.2]

/-! ## Batch quote lemmas, claims C8 and C9 -/

theorem applyCurrencyF_fields (it : QuoteItem) (cur : Option String) :
    (applyCurrencyF it cur).price = it.price ∧
    (applyCurrencyF it cur).previous_close = it.previous_close ∧
    (applyCurrencyF it cur).change = it.change ∧
    (applyCurrencyF it cur).change_pct = it.change_pct := by
  cases cur with
  | none => exact ⟨rfl, rfl, rfl, rfl⟩
  | some s => by_cases h : s ≠ "" <;> simp [applyCurrencyF, h]

theorem applyMcapF_fields (it : QuoteItem) (m : Option ℚ) :
    (applyMcapF it m).price = it.price ∧
    (applyMcapF it m).previous_close = it.previous_close ∧
    (applyMcapF it m).change = it.change ∧
    (applyMcapF it m).change_pct = it.change_pct := by
  cases m with
  | none => exact ⟨rfl, rfl, rfl, rfl⟩
  | some q => by_cases h : q ≠ 0 <;> simp [applyMcapF, h]

/-- The change/change-pct contract of one `QuoteItem`. -/
def changeContract (it : QuoteItem) : Prop :=
  (it.change.isSome ↔
    ∃ p pc, it.price = some p ∧ it.previous_close = some pc ∧ pc ≠ 0) ∧
  (it.change_pct.isSome ↔ it.change.isSome) ∧
  (∀ p pc, it.price = some p → it.previous_close = some pc → pc ≠ 0 →
    it.change = some (pyRound 4 (p - pc)) ∧
    it.change_pct = some (pyRound 3 (100 * pyRound 4 (p - pc) / pc)))

theorem changeContract_default (sym : String) (now : ℤ) :
    changeContract (defaultItem sym now) := by
  refine ⟨by simp [defaultItem], by simp [defaultItem], ?_⟩
  intro p pc hp
  simp [defaultItem] at hp

theorem processCandidate_default_spec (sym : String) (now : ℤ) (resp : CandResp)
    (it : QuoteItem) (h : processCandidate (defaultItem sym now) resp = some it) :
    changeContract it := by
  cases resp with
  | raise => simp [processCandidate] at h
  | ok fi hist =>
      rcases hrr : resolveRaw fi hist with _ | ⟨price1, prev1⟩
      · rw [processCandidate, hrr] at h
        simp at h
      · rw [processCandidate, hrr] at h
        simp only [Option.some.injEq] at h
        subst h
        rcases applyMcapF_fields
          (applyCurrencyF
            (setChange (applyPrevF (applyPriceF (defaultItem sym now) price1) prev1))
            fi.currency)
          (pyOrQ fi.market_cap fi.marketCap) with ⟨hm1, hm2, hm3, hm4⟩
        rcases applyCurrencyF_fields
          (setChange (applyPrevF (applyPriceF (defaultItem sym now) price1) prev1))
          fi.currency with ⟨hc1, hc2, hc3, hc4⟩
        unfold changeContract
        rw [hm1, hm2, hm3, hm4, hc1, hc2, hc3, hc4]
        rcases price1 with _ | q <;> rcases prev1 with _ | pc
        · simp [applyPriceF, applyPrevF, setChange, defaultItem]
        · simp [applyPriceF, applyPrevF, setChange, defaultItem]
        · simp [applyPriceF, applyPrevF, setChange, defaultItem]
        · by_cases hpc : pc = 0
          · subst hpc
            simp [applyPriceF, applyPrevF, setChange, defaultItem]
          · refine ⟨?_, ?_, ?_⟩
            · simp [applyPriceF, applyPrevF, setChange, defaultItem, hpc]
            · simp [applyPriceF, applyPrevF, setChange, defaultItem, hpc]
            · intro p2 pc2 hp2 hpc2 _
              simp [applyPriceF, applyPrevF, setChange, defaultItem, hpc] at hp2 hpc2 ⊢
              rw [← hp2, ← hpc2]
              exact ⟨rfl, rfl⟩

theorem tryCandidates_default_spec (sym : String) (now : ℤ) (rs : List CandResp) :
    changeContract (tryCandidates (defaultItem sym now) rs) := by
  induction rs with
  | nil => exact changeContract_default sym now
  | cons r rest ih =>
      cases hpc : processCandidate (defaultItem sym now) r with
      | none => simpa [tryCandidates, hpc] using ih
      | some it2 =>
          simpa [tryCandidates, hpc] using processCandidate_default_spec sym now r it2 hpc

/-- Claim C8: in every quote produced by the batch fetcher, `change` and
`change_pct` are populated iff a price and a non-zero previous close were
both resolved; when populated,
`change = round(price − previous_close, 4)` and
`change_pct = round(100·change/previous_close, 3)`. -/
theorem fetch_quotes_change_iff (qp : String → CandResp) (now : ℤ)
    (symbols : List String) (cs : ℕ) :
    ∀ it ∈ fetch_quotes qp now symbols cs,
      (it.change.isSome ↔
        ∃ p pc, it.price = some p ∧ it.previous_close = some pc ∧ pc ≠ 0) ∧
      (it.change_pct.isSome ↔ it.change.isSome) ∧
      (∀ p pc, it.price = some p → it.previous_close = some pc → pc ≠ 0 →
        it.change = some (pyRound 4 (p - pc)) ∧
        it.change_pct = some (pyRound 3 (100 * pyRound 4 (p - pc) / pc))) := by
  intro it hit
  simp only [fetch_quotes, List.mem_flatten, List.mem_map] at hit
  obtain ⟨batch2, ⟨batch, _hbatch, rfl⟩, hit2⟩ := hit
  obtain ⟨s, _hs, rfl⟩ := List.mem_map.mp hit2
  exact tryCandidates_default_spec s now ((candidatesOf s).map qp)

/-- Claim C8 witness: a provider answering price 10 and previous close 8
from `fast_info`; the quote carries the rounded change fields. -/
theorem fetch_quotes_change_iff_witness :
    (processSymbol fastInfoQp 0 "XY").change = some (pyRound 4 ((10 : ℚ) - 8)) ∧
    (processSymbol fastInfoQp 0 "XY").change_pct =
      some (pyRound 3 (100 * pyRound 4 ((10 : ℚ) - 8) / 8)) := by
  have hfq : fetch_quotes fastInfoQp 0 ["XY"] 25 = [processSymbol fastInfoQp 0 "XY"] := rfl
  have h := fetch_quotes_change_iff fastInfoQp 0 ["XY"] 25
    (processSymbol fastInfoQp 0 "XY") (by rw [hfq]; exact List.mem_singleton.mpr rfl)
  exact h.2.2 10 8 (by decide) (by decide) (by decide)

theorem chunksAux_flatten {α : Type} (size : ℕ) (buf l : List α) :
    (chunksAux size buf l).flatten = buf ++ l := by
  induction l generalizing buf with
  | nil =>
      by_cases h : buf.isEmpty
      · simp [chunksAux, h, List.isEmpty_iff.mp h]
      · simp [chunksAux, h]
  | cons s rest ih =>
      simp only [chunksAux]
      by_cases h : size ≤ buf.length + 1
      · simp [h, ih]
      · simp [h, ih]

theorem flatten_map_map {α β : Type} (f : α → β) (L : List (List α)) :
    (L.map (List.map f)).flatten = L.flatten.map f := by
  induction L with
  | nil => rfl
  | cons b L2 ih =>
      simp only [List.map_cons, List.flatten_cons, List.map_append, ih]

theorem tryCandidates_all_raise (it : QuoteItem) (rs : List CandResp)
    (h : ∀ r ∈ rs, r = .raise) : tryCandidates it rs = it := by
  induction rs with
  | nil => rfl
  | cons r rest ih =>
      have hr := h r (List.mem_cons_self _ _)
      subst hr
      simpa [tryCandidates, processCandidate]
        using ih (fun x hx => h x (List.mem_cons_of_mem _ hx))

/-- Claim C9: the batch fetcher returns exactly one quote per truthy input
symbol (chunking does not drop or abort anything), and a symbol whose
every candidate raises still gets its entry, identical to the fresh item —
all unresolved fields absent, never zero. -/
theorem fetch_quotes_no_abort (qp : String → CandResp) (now : ℤ)
    (symbols : List String) (cs : ℕ) :
    fetch_quotes qp now symbols cs =
      ((symbols.filter (fun s => !s.isEmpty)).map normalizeSymbol).map
        (processSymbol qp now) ∧
    (fetch_quotes qp now symbols cs).length =
      (symbols.filter (fun s => !s.isEmpty)).length ∧
    (∀ s, (∀ cand ∈ candidatesOf s, qp cand = .raise) →
      processSymbol qp now s = defaultItem s now) := by
  have h1 : fetch_quotes qp now symbols cs =
      ((symbols.filter (fun s => !s.isEmpty)).map normalizeSymbol).map
        (processSymbol qp now) := by
    unfold fetch_quotes pyChunks
    rw [flatten_map_map, chunksAux_flatten]
    rfl
  refine ⟨h1, by rw [h1]; simp, ?_⟩
  intro s hall
  unfold processSymbol
  refine tryCandidates_all_raise _ _ ?_
  intro r hr
  obtain ⟨cand, hc, rfl⟩ := List.mem_map.mp hr
  exact hall cand hc

/-- Claim C9 witness: the falsy symbol `""` is dropped, `" x"` survives
with an all-absent quote although every candidate raises. -/
theorem fetch_quotes_no_abort_witness :
    fetch_quotes (fun _ => CandResp.raise) 7 ["", " x"] 25 =
      [defaultItem (normalizeSymbol " x") 7] := by
  have h := fetch_quotes_no_abort (fun _ => CandResp.raise) 7 ["", " x"] 25
  rw [h.1]
  have hfilter : ((["", " x"].filter (fun s => !s.isEmpty)).map normalizeSymbol) =
      [normalizeSymbol " x"] := by decide
  rw [hfilter, List.map_singleton,
    h.2.2 (normalizeSymbol " x") (fun cand _ => rfl)]

end Major
